import Mathlib

/-!
# Verification of a binary search tree implementation

Shallow embedding of a JavaScript binary search tree (files node.js and the
Tree class).  A nullable node pointer (?Node) is modelled by the inductive
type BTree: BTree.leaf is null, BTree.node data left right is a Node
instance with fields data, left, right.  JavaScript numbers that pass the
isNaN guard are modelled by Int (the algorithms only compare keys).
Mutating methods return the new root, mirroring the source, where every
recursive helper returns the (possibly reattached) node and the public
method assigns it back to this.root.
-/

/-- A tree of nodes: leaf models the null pointer, node models a Node
instance with its data, left and right fields (node.js, constructor). -/
inductive BTree where
  | leaf : BTree
  | node (data : Int) (left : BTree) (right : BTree) : BTree
deriving DecidableEq, Repr

namespace BST

/-- Keys collected by the recursive inorder traversal `#inOrderRec`
(left subtree, the node, right subtree); the callback is modelled as
collecting the visited node's data. -/
def inOrderRec : BTree → List Int
  | .leaf => []
  | .node d l r => inOrderRec l ++ d :: inOrderRec r

/-- Number of nodes of a tree (used to state the size-balance part of the
balanced-construction property; not itself a source function). -/
def size : BTree → Nat
  | .leaf => 0
  | .node _ l r => size l + size r + 1

/-- The `height` method: 0 on null, otherwise one more than the larger
child height. -/
def height : BTree → Nat
  | .leaf => 0
  | .node _ l r => max (height l) (height r) + 1

/-- The `#isBalancedRec` helper: at every node the two child heights
differ by at most one (Math.abs(leftHeight - rightHeight) <= 1). -/
def isBalancedRec : BTree → Bool
  | .leaf => true
  | .node _ l r =>
    decide (((height l : Int) - (height r : Int)).natAbs ≤ 1)
      && isBalancedRec l && isBalancedRec r

/-- The `#insertRec` helper: descend by comparison, no-op when the key is
already present, attach a fresh node at a null slot. -/
def insertRec (v : Int) : BTree → BTree
  | .leaf => .node v .leaf .leaf
  | .node d l r =>
    if d = v then .node d l r
    else if d < v then .node d l (insertRec v r)
    else .node d (insertRec v l) r

/-- The while loop of `#nextItem`: starting from a node, descend left
while a left child exists and return the node reached (null stays null). -/
def leftmost : BTree → BTree
  | .leaf => .leaf
  | .node d .leaf r => .node d .leaf r
  | .node _ (.node dl ll rl) _ => leftmost (.node dl ll rl)

/-- The `#nextItem` helper applied to a node: step to the right child,
then descend left while possible. -/
def nextItem : BTree → BTree
  | .leaf => .leaf
  | .node _ _ r => leftmost r

/-- The data field of a node.  On the null pointer the source would fault
(nextNode.data on null); `#deleteItemRec` only reads it from the result of
`#nextItem` on a node whose right child exists, where it is never null,
so the value returned for leaf is irrelevant. -/
def dataOf : BTree → Int
  | .leaf => 0
  | .node d _ _ => d

/-- The `#deleteItemRec` helper: descend by comparison; on the target,
promote the single child when one side is null, otherwise overwrite the
target's data with the in-order successor's data (`#nextItem`) and delete
that data from the right subtree. -/
def deleteItemRec (v : Int) : BTree → BTree
  | .leaf => .leaf
  | .node d l r =>
    if d < v then .node d l (deleteItemRec v r)
    else if v < d then .node d (deleteItemRec v l) r
    else
      match l with
      | .leaf => r
      | .node dl ll rl =>
        match r with
        | .leaf => .node dl ll rl
        | .node dr lr rr =>
          let nd := dataOf (nextItem (.node d (.node dl ll rl) (.node dr lr rr)))
          .node nd (.node dl ll rl) (deleteItemRec nd (.node dr lr rr))

/-- The `#findRec` helper: return the node holding the value, or null. -/
def findRec (v : Int) : BTree → BTree
  | .leaf => .leaf
  | .node d l r =>
    if d = v then .node d l r
    else if d < v then findRec v r
    else findRec v l

/-- The `#buildTree` helper: empty array gives null, otherwise the middle
element (index length / 2) becomes the root, the left slice (indices
below mid) builds the left subtree and the right slice (indices above
mid) the right subtree. -/
def buildTree (l : List Int) : BTree :=
  if h : l.length = 0 then .leaf
  else
    .node (l.get ⟨l.length / 2, Nat.div_lt_self (Nat.pos_of_ne_zero h) one_lt_two⟩)
      (buildTree (l.take (l.length / 2)))
      (buildTree (l.drop (l.length / 2 + 1)))
termination_by l.length
decreasing_by
  · simp only [List.length_take]
    omega
  · simp only [List.length_drop]
    omega

/-- The pure part of `#processArray`: remove duplicates ([...new Set(nums)])
and sort ascending (.sort((a, b) => a - b)). -/
def sortDedup (l : List Int) : List Int :=
  (l.dedup).insertionSort (· ≤ ·)

/-- The `rebalance` method: when the tree is unbalanced, collect the keys
with an inorder traversal and rebuild with `#buildTree`; otherwise leave
the root alone. -/
def rebalance (t : BTree) : BTree :=
  if isBalancedRec t then t else buildTree (inOrderRec t)

/-- An argument of the dynamically typed public API: either a value the
host language coerces to the number n (isNaN is false), or a value that
is not numeric-coercible (isNaN is true). -/
inductive JSValue where
  | num (n : Int) : JSValue
  | other : JSValue
deriving DecidableEq, Repr

/-- The array.map step of `#processArray`: convert every item, throwing
(error) at the first item whose isNaN test is true. -/
def coerceAll : List JSValue → Except Unit (List Int)
  | [] => .ok []
  | .other :: _ => .error ()
  | .num n :: rest => (coerceAll rest).map (n :: ·)

/-- The `#processArray` helper: coerce every item, then deduplicate and
sort; an error models the thrown conversion Error. -/
def processArray (l : List JSValue) : Except Unit (List Int) :=
  (coerceAll l).map sortDedup

/-- The Tree constructor on an arbitrary array: this.root =
this.#buildTree(this.#processArray(array)); an error models the
conversion Error propagating out of the constructor. -/
def newTree (l : List JSValue) : Except Unit BTree :=
  (processArray l).map buildTree

/-- The Tree constructor restricted to arrays whose items all coerce to
numbers (the resulting root, which always exists in that case). -/
def treeOfNums (l : List Int) : BTree :=
  buildTree (sortDedup l)

/-- The `insert` method in state-passing form: the resulting root together
with a flag telling whether the conversion Error was thrown.  The throw
happens before this.root is assigned, so on error the root is unchanged. -/
def insert (v : JSValue) (t : BTree) : BTree × Bool :=
  match v with
  | .other => (t, true)
  | .num n => (insertRec n t, false)

/-- The `deleteItem` method in state-passing form, like `insert`. -/
def deleteItem (v : JSValue) (t : BTree) : BTree × Bool :=
  match v with
  | .other => (t, true)
  | .num n => (deleteItemRec n t, false)

/-- The `find` method in state-passing form: the returned node (or the
conversion Error) together with the root after the call; the method body
contains no assignment, so the root component is the argument itself. -/
def find (v : JSValue) (t : BTree) : Except Unit BTree × BTree :=
  match v with
  | .other => (.error (), t)
  | .num n => (.ok (findRec n t), t)

/-- Total node count of a queue of trees (termination measure for the
breadth-first loop). -/
def queueSize (q : List BTree) : Nat :=
  (q.map size).sum

/-- The queue loop of the `levelOrder` method: dequeue a node, visit it,
enqueue its non-null left then right children; the levelSize bookkeeping
of the source only counts dequeues per level and does not change the
dequeue/enqueue order.  Null is never enqueued, so the leaf case is
unreachable from the public method. -/
def bfs : List BTree → List Int
  | [] => []
  | .leaf :: q => bfs q
  | .node d l r :: q =>
    d :: bfs (q ++ (match l with | .leaf => [] | x => [x])
                ++ (match r with | .leaf => [] | x => [x]))
termination_by q => 2 * queueSize q + q.length
decreasing_by
  · simp only [queueSize, List.map_cons, List.sum_cons, size, List.length_cons]
    omega
  · simp only [queueSize, List.map_cons, List.map_append, List.sum_cons,
      List.sum_append, size, List.length_cons, List.length_append]
    rcases l with _ | ⟨dl, ll, rl⟩ <;> rcases r with _ | ⟨dr, lr, rr⟩ <;>
      simp [size] <;> omega

/-- The `levelOrder` method in state-passing form: the visited keys (the
callback is modelled as collecting the visited node's data) together with
the root after the call; the method mutates only its local queue. -/
def levelOrder (t : BTree) : List Int × BTree :=
  (match t with
   | .leaf => []
   | x => bfs [x], t)

/-- The `inOrder` method in state-passing form. -/
def inOrder (t : BTree) : List Int × BTree :=
  (inOrderRec t, t)

/-- The `height` method in state-passing form (it takes a node argument
and never assigns to the tree). -/
def heightOp (n : BTree) (t : BTree) : Nat × BTree :=
  (height n, t)

/-- The `isBalanced` method in state-passing form. -/
def isBalanced (t : BTree) : Bool × BTree :=
  (isBalancedRec t, t)

/-- A JavaScript value sitting in the node parameter of `#preOrderRec` or
`#postOrderRec`: null, undefined (the parameter when the recursive call
passes a single argument), or a Node reference. -/
inductive NVal where
  | jnull : NVal
  | jundef : NVal
  | jnode (d : Int) (l : BTree) (r : BTree) : NVal
deriving DecidableEq, Repr

/-- A JavaScript value sitting in the callback parameter: the invocable
callback supplied by the caller, or a non-function value (null, undefined
or a Node reference) that ends up there when a recursive call drops the
callback argument. -/
inductive CVal where
  | fn : CVal
  | ofN (v : NVal) : CVal
deriving DecidableEq, Repr

/-- View of a nullable node pointer as the value held in a parameter. -/
def toN : BTree → NVal
  | .leaf => .jnull
  | .node d l r => .jnode d l r

/-- Recursion rank of a node-parameter value (only a Node reference leads
to a recursive call). -/
def NVal.rank : NVal → Nat
  | .jnode _ _ _ => 1
  | _ => 0

/-- The `#preOrderRec` helper exactly as written, including the bug that
the recursive calls pass node.left (resp. node.right) as the callback and
leave the node parameter undefined: the returned list is the sequence of
arguments passed to invocations of the supplied callback, and the flag
tells whether a TypeError was thrown.  Calling a non-function value and
reading .left off undefined both throw. -/
def preOrderRec (cb : CVal) (nd : NVal) : List NVal × Bool :=
  match cb, nd with
  | _, .jnull => ([], false)
  | .ofN _, _ => ([], true)
  | .fn, .jundef => ([.jundef], true)
  | .fn, .jnode d l r =>
    let r1 := preOrderRec (.ofN (toN l)) .jundef
    if r1.2 then (.jnode d l r :: r1.1, true)
    else
      let r2 := preOrderRec (.ofN (toN r)) .jundef
      (.jnode d l r :: (r1.1 ++ r2.1), r2.2)
termination_by NVal.rank nd
decreasing_by
  all_goals simp [NVal.rank]

/-- The `#postOrderRec` helper exactly as written, including the same
dropped-callback bug; here the recursive calls come before the callback
invocation, and the recursive call on an undefined node parameter throws
when it reads node.left. -/
def postOrderRec (cb : CVal) (nd : NVal) : List NVal × Bool :=
  match cb, nd with
  | _, .jnull => ([], false)
  | _, .jundef => ([], true)
  | cb, .jnode d l r =>
    let r1 := postOrderRec (.ofN (toN l)) .jundef
    if r1.2 then r1
    else
      let r2 := postOrderRec (.ofN (toN r)) .jundef
      if r2.2 then (r1.1 ++ r2.1, true)
      else
        match cb with
        | .fn => (r1.1 ++ r2.1 ++ [.jnode d l r], false)
        | .ofN _ => (r1.1 ++ r2.1, true)
termination_by NVal.rank nd
decreasing_by
  all_goals simp [NVal.rank]

/-- The `preOrder` method called with an invocable callback (so the
typeof check passes): it hands the callback and the root to
`#preOrderRec`. -/
def preOrder (t : BTree) : List NVal × Bool :=
  preOrderRec .fn (toN t)

/-- The `postOrder` method called with an invocable callback. -/
def postOrder (t : BTree) : List NVal × Bool :=
  postOrderRec .fn (toN t)

/-- Every key of the tree satisfies the predicate (proof infrastructure,
not a source function). -/
def allB (p : Int → Bool) : BTree → Bool
  | .leaf => true
  | .node d l r => p d && allB p l && allB p r

/-- The structural binary-search-tree invariant: at every node, every key
of the left subtree is smaller and every key of the right subtree larger
than the node's data (proof infrastructure, not a source function). -/
def bstB : BTree → Bool
  | .leaf => true
  | .node d l r =>
    allB (fun x => decide (x < d)) l && allB (fun x => decide (d < x)) r
      && bstB l && bstB r

theorem allB_iff (p : Int → Bool) (t : BTree) :
    allB p t = true ↔ ∀ x ∈ inOrderRec t, p x = true := by
  induction t with
  | leaf => simp [allB, inOrderRec]
  | node d l r ihl ihr =>
    simp only [allB, inOrderRec, Bool.and_eq_true, ihl, ihr, List.mem_append,
      List.mem_cons]
    constructor
    · rintro ⟨⟨hd, hl⟩, hr⟩ x (hx | rfl | hx)
      · exact hl x hx
      · exact hd
      · exact hr x hx
    · intro h
      exact ⟨⟨h d (Or.inr (Or.inl rfl)), fun x hx => h x (Or.inl hx)⟩,
        fun x hx => h x (Or.inr (Or.inr hx))⟩

theorem bstB_iff_sorted (t : BTree) :
    bstB t = true ↔ List.Sorted (· < ·) (inOrderRec t) := by
  induction t with
  | leaf => simp [bstB, inOrderRec, List.Sorted]
  | node d l r ihl ihr =>
    simp only [bstB, Bool.and_eq_true, allB_iff, decide_eq_true_eq, ihl, ihr,
      inOrderRec, List.Sorted, List.pairwise_append, List.pairwise_cons,
      List.mem_cons]
    constructor
    · rintro ⟨⟨⟨hl, hr⟩, sl⟩, sr⟩
      refine ⟨sl, ⟨fun b hb => hr b hb, sr⟩, ?_⟩
      rintro a ha b (rfl | hb)
      · exact hl a ha
      · exact lt_trans (hl a ha) (hr b hb)
    · rintro ⟨sl, ⟨hd, sr⟩, hcross⟩
      exact ⟨⟨⟨fun x hx => hcross x hx d (Or.inl rfl), fun x hx => hd x hx⟩, sl⟩, sr⟩

theorem mem_insertRec (v x : Int) (t : BTree) :
    x ∈ inOrderRec (insertRec v t) ↔ x = v ∨ x ∈ inOrderRec t := by
  induction t with
  | leaf => simp [insertRec, inOrderRec]
  | node d l r ihl ihr =>
    by_cases h1 : d = v
    · subst h1
      simp only [insertRec, if_pos rfl, inOrderRec, List.mem_append, List.mem_cons]
      tauto
    · by_cases h2 : d < v
      · simp only [insertRec, if_neg h1, if_pos h2, inOrderRec, List.mem_append,
          List.mem_cons, ihr]
        tauto
      · simp only [insertRec, if_neg h1, if_neg h2, inOrderRec, List.mem_append,
          List.mem_cons, ihl]
        tauto

theorem allB_insertRec (p : Int → Bool) (v : Int) (t : BTree)
    (ht : allB p t = true) (hv : p v = true) : allB p (insertRec v t) = true := by
  rw [allB_iff] at ht ⊢
  intro x hx
  rcases (mem_insertRec v x t).mp hx with rfl | hx
  · exact hv
  · exact ht x hx

theorem bstB_insertRec (v : Int) (t : BTree) (h : bstB t = true) :
    bstB (insertRec v t) = true := by
  induction t with
  | leaf => simp [insertRec, bstB, allB]
  | node d l r ihl ihr =>
    simp only [bstB, Bool.and_eq_true] at h
    obtain ⟨⟨⟨hal, har⟩, hbl⟩, hbr⟩ := h
    by_cases h1 : d = v
    · simp only [insertRec, if_pos h1, bstB, Bool.and_eq_true]
      exact ⟨⟨⟨hal, har⟩, hbl⟩, hbr⟩
    · by_cases h2 : d < v
      · simp only [insertRec, if_neg h1, if_pos h2, bstB, Bool.and_eq_true]
        exact ⟨⟨⟨hal, allB_insertRec _ _ _ har (by simpa using h2)⟩, hbl⟩, ihr hbr⟩
      · simp only [insertRec, if_neg h1, if_neg h2, bstB, Bool.and_eq_true]
        have hvd : v < d := lt_of_le_of_ne (not_lt.mp h2) fun hh => h1 hh.symm
        exact ⟨⟨⟨allB_insertRec _ _ _ hal (by simpa using hvd), har⟩, ihl hbl⟩, hbr⟩

theorem inOrderRec_buildTree (l : List Int) : inOrderRec (buildTree l) = l := by
  induction l using buildTree.induct with
  | case1 l h =>
    rw [buildTree, dif_pos h, inOrderRec]
    exact (List.eq_nil_of_length_eq_zero h).symm
  | case2 l h ih1 ih2 =>
    rw [buildTree, dif_neg h, inOrderRec, ih1, ih2]
    have hm : l.length / 2 < l.length := Nat.div_lt_self (Nat.pos_of_ne_zero h) one_lt_two
    calc l.take (l.length / 2) ++ l.get ⟨l.length / 2, hm⟩ :: l.drop (l.length / 2 + 1)
        = l.take (l.length / 2) ++ l.drop (l.length / 2) := by
          rw [List.drop_eq_getElem_cons hm]
          simp
      _ = l := List.take_append_drop _ _

theorem mem_sortDedup (x : Int) (l : List Int) : x ∈ sortDedup l ↔ x ∈ l := by
  simp [sortDedup, List.mem_insertionSort, List.mem_dedup]

theorem nodup_sortDedup (l : List Int) : (sortDedup l).Nodup :=
  ((List.perm_insertionSort _ _).nodup_iff).mpr (List.nodup_dedup l)

theorem sorted_sortDedup (l : List Int) : List.Sorted (· < ·) (sortDedup l) := by
  have hle : List.Sorted (· ≤ ·) (sortDedup l) :=
    List.sorted_insertionSort (· ≤ ·) (l.dedup)
  have hne : (sortDedup l).Pairwise (· ≠ ·) := nodup_sortDedup l
  exact (hle.and hne).imp fun h => lt_of_le_of_ne h.1 h.2

/-- Height of the balanced build as a function of the array length alone:
0 on the empty array, otherwise one more than on the left half. -/
def hgt : Nat → Nat
  | 0 => 0
  | n + 1 => hgt ((n + 1) / 2) + 1
decreasing_by omega

theorem hgt_succ (n : Nat) (h : n ≠ 0) : hgt n = hgt (n / 2) + 1 := by
  cases n with
  | zero => exact absurd rfl h
  | succ m => rw [hgt]

theorem hgt_mono : ∀ (n m : Nat), m ≤ n → hgt m ≤ hgt n := by
  intro n
  induction n using Nat.strong_induction_on with
  | _ n ih =>
    intro m hmn
    by_cases hm : m = 0
    · subst hm
      simp [hgt]
    · have hn : n ≠ 0 := by omega
      rw [hgt_succ m hm, hgt_succ n hn]
      have hlt : n / 2 < n := Nat.div_lt_self (Nat.pos_of_ne_zero hn) one_lt_two
      exact Nat.add_le_add_right (ih (n / 2) hlt (m / 2) (Nat.div_le_div_right hmn)) 1

theorem hgt_le_double : ∀ (m n : Nat), m ≤ 2 * n + 1 → hgt m ≤ hgt n + 1 := by
  intro m
  induction m using Nat.strong_induction_on with
  | _ m ih =>
    intro n h
    by_cases hm : m = 0
    · subst hm
      simp [hgt]
    · rw [hgt_succ m hm]
      by_cases hn : n = 0
      · subst hn
        have hm1 : m = 1 := by omega
        subst hm1
        simp [hgt]
      · rw [hgt_succ n hn]
        exact Nat.add_le_add_right (ih (m / 2) (by omega) (n / 2) (by omega)) 1

theorem height_buildTree (l : List Int) : height (buildTree l) = hgt l.length := by
  induction l using buildTree.induct with
  | case1 l h =>
    rw [buildTree, dif_pos h, height, h, hgt]
  | case2 l h ih1 ih2 =>
    rw [buildTree, dif_neg h, height, ih1, ih2, List.length_take, List.length_drop]
    have hmin : min (l.length / 2) l.length = l.length / 2 := by omega
    rw [hmin]
    have hle : l.length - (l.length / 2 + 1) ≤ l.length / 2 := by omega
    rw [max_eq_left (hgt_mono _ _ hle)]
    exact (hgt_succ l.length h).symm

theorem isBalancedRec_buildTree (l : List Int) :
    isBalancedRec (buildTree l) = true := by
  induction l using buildTree.induct with
  | case1 l h => rw [buildTree, dif_pos h, isBalancedRec]
  | case2 l h ih1 ih2 =>
    rw [buildTree, dif_neg h, isBalancedRec, ih1, ih2,
      height_buildTree, height_buildTree, List.length_take, List.length_drop]
    have hmin : min (l.length / 2) l.length = l.length / 2 := by omega
    rw [hmin]
    have h1 : hgt (l.length - (l.length / 2 + 1)) ≤ hgt (l.length / 2) :=
      hgt_mono _ _ (by omega)
    have h2 : hgt (l.length / 2) ≤ hgt (l.length - (l.length / 2 + 1)) + 1 :=
      hgt_le_double _ _ (by omega)
    simp only [Bool.and_true, decide_eq_true_eq]
    omega

theorem size_eq_length_inOrderRec (t : BTree) : size t = (inOrderRec t).length := by
  induction t with
  | leaf => rfl
  | node d l r ihl ihr => simp [size, inOrderRec, ihl, ihr]; omega

theorem size_buildTree (l : List Int) : size (buildTree l) = l.length := by
  rw [size_eq_length_inOrderRec, inOrderRec_buildTree]

/-- At every node, the numbers of nodes of the two subtrees differ by at
most one (the size-balance property the spec ascribes to the balanced
build; not a source function). -/
def sizeBalancedB : BTree → Bool
  | .leaf => true
  | .node _ l r =>
    decide (((size l : Int) - (size r : Int)).natAbs ≤ 1)
      && sizeBalancedB l && sizeBalancedB r

theorem sizeBalancedB_buildTree (l : List Int) :
    sizeBalancedB (buildTree l) = true := by
  induction l using buildTree.induct with
  | case1 l h => rw [buildTree, dif_pos h, sizeBalancedB]
  | case2 l h ih1 ih2 =>
    rw [buildTree, dif_neg h, sizeBalancedB, ih1, ih2, size_buildTree,
      size_buildTree, List.length_take, List.length_drop]
    simp only [Bool.and_true, decide_eq_true_eq]
    omega

theorem leftmost_head (t : BTree) (hne : t ≠ .leaf) :
    ∃ rest, inOrderRec t = dataOf (leftmost t) :: rest := by
  induction t with
  | leaf => exact absurd rfl hne
  | node d l r ihl ihr =>
    cases l with
    | leaf => exact ⟨inOrderRec r, by simp [inOrderRec, leftmost, dataOf]⟩
    | node dl ll rl =>
      obtain ⟨rest, hrest⟩ := ihl (by simp)
      refine ⟨rest ++ d :: inOrderRec r, ?_⟩
      show inOrderRec (.node dl ll rl) ++ d :: inOrderRec r = _
      rw [hrest, leftmost]
      rfl

theorem leftmost_min (t : BTree) (hb : bstB t = true) (hne : t ≠ .leaf) :
    dataOf (leftmost t) ∈ inOrderRec t ∧
    ∀ x ∈ inOrderRec t, x ≠ dataOf (leftmost t) → dataOf (leftmost t) < x := by
  obtain ⟨rest, hrest⟩ := leftmost_head t hne
  have hs := (bstB_iff_sorted t).mp hb
  rw [hrest] at hs ⊢
  refine ⟨List.mem_cons_self _ _, ?_⟩
  intro x hx hxne
  rcases List.mem_cons.mp hx with rfl | hx
  · exact absurd rfl hxne
  · exact (List.pairwise_cons.mp hs).1 x hx

theorem deleteItemRec_lt {v d : Int} {l r : BTree} (h : d < v) :
    deleteItemRec v (.node d l r) = .node d l (deleteItemRec v r) := by
  rw [deleteItemRec.eq_def]
  simp [h]

theorem deleteItemRec_gt {v d : Int} {l r : BTree} (h : v < d) :
    deleteItemRec v (.node d l r) = .node d (deleteItemRec v l) r := by
  rw [deleteItemRec.eq_def]
  simp [h, not_lt_of_gt h]

theorem deleteItemRec_leafL (d : Int) (r : BTree) :
    deleteItemRec d (.node d .leaf r) = r := by
  rw [deleteItemRec.eq_def]
  simp

theorem deleteItemRec_leafR (d : Int) (l : BTree) (hl : l ≠ .leaf) :
    deleteItemRec d (.node d l .leaf) = l := by
  rw [deleteItemRec.eq_def]
  cases l with
  | leaf => exact absurd rfl hl
  | node dl ll rl => simp

theorem deleteItemRec_both (d : Int) (l r : BTree) (hl : l ≠ .leaf)
    (hr : r ≠ .leaf) :
    deleteItemRec d (.node d l r) =
      .node (dataOf (leftmost r)) l (deleteItemRec (dataOf (leftmost r)) r) := by
  rw [deleteItemRec.eq_def]
  cases l with
  | leaf => exact absurd rfl hl
  | node dl ll rl =>
    cases r with
    | leaf => exact absurd rfl hr
    | node dr lr rr => simp [nextItem]

theorem inOrderRec_node (d : Int) (l r : BTree) :
    inOrderRec (.node d l r) = inOrderRec l ++ d :: inOrderRec r := rfl

theorem deleteItemRec_spec (t : BTree) : ∀ v : Int, bstB t = true →
    bstB (deleteItemRec v t) = true ∧
    ∀ x : Int, x ∈ inOrderRec (deleteItemRec v t) ↔
      x ∈ inOrderRec t ∧ x ≠ v := by
  induction t with
  | leaf =>
    intro v _
    exact ⟨rfl, by simp [deleteItemRec, inOrderRec]⟩
  | node d l r ihl ihr =>
    intro v hb
    simp only [bstB, Bool.and_eq_true] at hb
    obtain ⟨⟨⟨hal, har⟩, hbl⟩, hbr⟩ := hb
    have hl' : ∀ x ∈ inOrderRec l, x < d := by
      have := (allB_iff _ _).mp hal
      simpa using this
    have hr' : ∀ x ∈ inOrderRec r, d < x := by
      have := (allB_iff _ _).mp har
      simpa using this
    by_cases h1 : d < v
    · obtain ⟨ihb, ihm⟩ := ihr v hbr
      rw [deleteItemRec_lt h1]
      constructor
      · simp only [bstB, Bool.and_eq_true]
        refine ⟨⟨⟨hal, ?_⟩, hbl⟩, ihb⟩
        rw [allB_iff]
        intro x hx
        simpa using hr' x ((ihm x).mp hx).1
      · intro x
        rw [inOrderRec_node, inOrderRec_node]
        simp only [List.mem_append, List.mem_cons, ihm]
        constructor
        · rintro (hx | rfl | ⟨hx, hne⟩)
          · exact ⟨Or.inl hx, by have := hl' x hx; omega⟩
          · exact ⟨Or.inr (Or.inl rfl), by omega⟩
          · exact ⟨Or.inr (Or.inr hx), hne⟩
        · rintro ⟨hx | rfl | hx, hne⟩
          · exact Or.inl hx
          · exact Or.inr (Or.inl rfl)
          · exact Or.inr (Or.inr ⟨hx, hne⟩)
    · by_cases h2 : v < d
      · obtain ⟨ihb, ihm⟩ := ihl v hbl
        rw [deleteItemRec_gt h2]
        constructor
        · simp only [bstB, Bool.and_eq_true]
          refine ⟨⟨⟨?_, har⟩, ihb⟩, hbr⟩
          rw [allB_iff]
          intro x hx
          simpa using hl' x ((ihm x).mp hx).1
        · intro x
          rw [inOrderRec_node, inOrderRec_node]
          simp only [List.mem_append, List.mem_cons, ihm]
          constructor
          · rintro (⟨hx, hne⟩ | rfl | hx)
            · exact ⟨Or.inl hx, hne⟩
            · exact ⟨Or.inr (Or.inl rfl), by omega⟩
            · exact ⟨Or.inr (Or.inr hx), by have := hr' x hx; omega⟩
          · rintro ⟨hx | rfl | hx, hne⟩
            · exact Or.inl ⟨hx, hne⟩
            · exact Or.inr (Or.inl rfl)
            · exact Or.inr (Or.inr hx)
      · have hdv : d = v := by omega
        subst hdv
        by_cases hlleaf : l = .leaf
        · subst hlleaf
          rw [deleteItemRec_leafL]
          refine ⟨hbr, ?_⟩
          intro x
          rw [inOrderRec_node]
          simp only [inOrderRec, List.nil_append, List.mem_cons]
          constructor
          · intro hx
            exact ⟨Or.inr hx, by have := hr' x hx; omega⟩
          · rintro ⟨rfl | hx, hne⟩
            · exact absurd rfl hne
            · exact hx
        · by_cases hrleaf : r = .leaf
          · subst hrleaf
            rw [deleteItemRec_leafR d l hlleaf]
            refine ⟨hbl, ?_⟩
            intro x
            rw [inOrderRec_node]
            simp only [inOrderRec, List.mem_append, List.mem_cons,
              List.not_mem_nil, or_false]
            constructor
            · intro hx
              exact ⟨Or.inl hx, by have := hl' x hx; omega⟩
            · rintro ⟨hx | rfl, hne⟩
              · exact hx
              · exact absurd rfl hne
          · obtain ⟨hmmem, hmmin⟩ := leftmost_min r hbr hrleaf
            set m := dataOf (leftmost r) with hm
            obtain ⟨ihb, ihm⟩ := ihr m hbr
            have hdm : d < m := hr' m hmmem
            rw [deleteItemRec_both d l r hlleaf hrleaf, ← hm]
            constructor
            · simp only [bstB, Bool.and_eq_true]
              refine ⟨⟨⟨?_, ?_⟩, hbl⟩, ihb⟩
              · rw [allB_iff]
                intro x hx
                have := hl' x hx
                simp only [decide_eq_true_eq]
                omega
              · rw [allB_iff]
                intro x hx
                obtain ⟨hxr, hxm⟩ := (ihm x).mp hx
                simpa using hmmin x hxr hxm
            · intro x
              rw [inOrderRec_node, inOrderRec_node]
              simp only [List.mem_append, List.mem_cons, ihm]
              constructor
              · rintro (hx | rfl | ⟨hx, hne⟩)
                · exact ⟨Or.inl hx, by have := hl' x hx; omega⟩
                · exact ⟨Or.inr (Or.inr hmmem), by omega⟩
                · exact ⟨Or.inr (Or.inr hx), by have := hr' x hx; omega⟩
              · rintro ⟨hx | rfl | hx, hne⟩
                · exact Or.inl hx
                · exact absurd rfl hne
                · by_cases hxm : x = m
                  · exact Or.inr (Or.inl hxm)
                  · exact Or.inr (Or.inr ⟨hx, hxm⟩)

theorem deleteItemRec_noop (t : BTree) : ∀ v : Int,
    v ∉ inOrderRec t → deleteItemRec v t = t := by
  induction t with
  | leaf => intro v _; rfl
  | node d l r ihl ihr =>
    intro v hv
    rw [inOrderRec_node] at hv
    simp only [List.mem_append, List.mem_cons, not_or] at hv
    obtain ⟨hvl, hvd, hvr⟩ := hv
    rcases lt_trichotomy d v with h1 | h1 | h1
    · rw [deleteItemRec_lt h1, ihr v hvr]
    · exact absurd h1.symm hvd
    · rw [deleteItemRec_gt h1, ihl v hvl]

/-- Trees produced by the constructor followed by any finite sequence of
insert and deleteItem calls with numeric-coercible arguments. -/
inductive Reach : BTree → Prop
  | base (l : List Int) : Reach (treeOfNums l)
  | ins (v : Int) {t : BTree} : Reach t → Reach (insertRec v t)
  | del (v : Int) {t : BTree} : Reach t → Reach (deleteItemRec v t)

theorem bstB_treeOfNums (l : List Int) : bstB (treeOfNums l) = true := by
  rw [bstB_iff_sorted, treeOfNums, inOrderRec_buildTree]
  exact sorted_sortDedup l

theorem bstB_of_reach {t : BTree} (h : Reach t) : bstB t = true := by
  induction h with
  | base l => exact bstB_treeOfNums l
  | ins v _ ih => exact bstB_insertRec v _ ih
  | del v _ ih => exact (deleteItemRec_spec _ v ih).1

theorem coerceAll_error (l1 l2 : List JSValue) :
    coerceAll (l1 ++ JSValue.other :: l2) = .error () := by
  induction l1 with
  | nil => rfl
  | cons x xs ih =>
    cases x with
    | other => rfl
    | num n => simp [coerceAll, ih, Except.map]

theorem coerceAll_nums (l : List Int) :
    coerceAll (l.map JSValue.num) = .ok l := by
  induction l with
  | nil => rfl
  | cons x xs ih => simp [coerceAll, ih, Except.map]

end BST

namespace BST

/-! ## The claims

The following command only makes the well-founded definitions reducible so
that witnesses can be evaluated on concrete inputs by kernel reduction. -/

unseal buildTree preOrderRec postOrderRec

/-- C1 (code defect): on the non-empty tree built from [1, 2, 3] (three
nodes), preOrder with an invocable callback does not invoke the callback
once per node in pre-order: it invokes it exactly once, on the root, and
then throws a TypeError, because the recursive calls of `#preOrderRec`
pass node.left (resp. node.right) as the callback and leave the node
parameter undefined. -/
theorem claim_C1_preOrder_bug :
    (inOrderRec (treeOfNums [1, 2, 3])).length = 3
    ∧ (preOrder (treeOfNums [1, 2, 3])).2 = true
    ∧ (preOrder (treeOfNums [1, 2, 3])).1 =
        [NVal.jnode 2 (.node 1 .leaf .leaf) (.node 3 .leaf .leaf)] := by
  decide

/-- C2 (code defect): on the non-empty tree built from [1, 2, 3] (three
nodes), postOrder with an invocable callback never invokes the callback
and throws a TypeError: the first recursive call of `#postOrderRec`
leaves the node parameter undefined and the nested call then reads .left
off undefined before any callback invocation can happen. -/
theorem claim_C2_postOrder_bug :
    (inOrderRec (treeOfNums [1, 2, 3])).length = 3
    ∧ (postOrder (treeOfNums [1, 2, 3])).2 = true
    ∧ (postOrder (treeOfNums [1, 2, 3])).1 = [] := by
  decide

/-- C3: every tree obtained from construction followed by any finite
sequence of insert and deleteItem calls with numeric-coercible arguments
has a strictly ascending in-order key sequence, and the strict BST
ordering holds at every node. -/
theorem claim_C3_bst_invariant (t : BTree) (h : Reach t) :
    List.Sorted (· < ·) (inOrderRec t) ∧ bstB t = true := by
  have hb := bstB_of_reach h
  exact ⟨(bstB_iff_sorted t).mp hb, hb⟩

/-- Witness for C3 at a concrete reachable tree:
new([3, 1, 2]) then insert(5) then deleteItem(1). -/
theorem claim_C3_witness :
    List.Sorted (· < ·)
      (inOrderRec (deleteItemRec 1 (insertRec 5 (treeOfNums [3, 1, 2])))) ∧
    bstB (deleteItemRec 1 (insertRec 5 (treeOfNums [3, 1, 2]))) = true :=
  claim_C3_bst_invariant _ (Reach.del 1 (Reach.ins 5 (Reach.base [3, 1, 2])))

/-- C4: for arrays of numeric-coercible values (their numeric conversions
being the integer list l), the in-order key sequence of new(l) is exactly
the sorted deduplicated contents of l: it is the strictly sorted list
whose members are the members of l; in particular new([3, 6, 6, 1, 8, 1])
yields the in-order sequence [1, 3, 6, 8]. -/
theorem claim_C4_round_trip :
    (∀ l : List Int,
      inOrderRec (treeOfNums l) = sortDedup l
      ∧ List.Sorted (· < ·) (sortDedup l)
      ∧ (∀ x : Int, x ∈ sortDedup l ↔ x ∈ l))
    ∧ inOrderRec (treeOfNums [3, 6, 6, 1, 8, 1]) = [1, 3, 6, 8] := by
  refine ⟨fun l => ⟨?_, sorted_sortDedup l, fun x => mem_sortDedup x l⟩, by decide⟩
  rw [treeOfNums, inOrderRec_buildTree]

/-- C5: on a tree satisfying the BST invariant, deleting a present
numeric value v removes exactly the key v and preserves the invariant,
deleting an absent value leaves the tree unchanged, and a target with two
children is handled by overwriting its data with the data of the in-order
successor produced by `#nextItem` (leftmost node of the right subtree)
and deleting that data from the right subtree. -/
theorem claim_C5_delete_correct (t : BTree) (v : Int) (hb : bstB t = true) :
    ((∀ x : Int, x ∈ inOrderRec ((deleteItem (JSValue.num v) t).1) ↔
        x ∈ inOrderRec t ∧ x ≠ v)
      ∧ bstB ((deleteItem (JSValue.num v) t).1) = true)
    ∧ (v ∉ inOrderRec t → (deleteItem (JSValue.num v) t).1 = t)
    ∧ (∀ (d : Int) (l r : BTree), l ≠ .leaf → r ≠ .leaf →
        deleteItemRec d (.node d l r) =
          .node (dataOf (nextItem (.node d l r))) l
            (deleteItemRec (dataOf (nextItem (.node d l r))) r)) := by
  have hs := deleteItemRec_spec t v hb
  refine ⟨⟨fun x => (hs.2 x), hs.1⟩, fun hv => deleteItemRec_noop t v hv, ?_⟩
  intro d l r hl hr
  have : dataOf (nextItem (.node d l r)) = dataOf (leftmost r) := rfl
  rw [this]
  exact deleteItemRec_both d l r hl hr

/-- Witness for C5 on the tree new([1, 2, 3]) with v = 2 (present) and
the no-op part exercised through the same theorem at v = 7 (absent). -/
theorem claim_C5_witness :
    ((∀ x : Int, x ∈ inOrderRec ((deleteItem (JSValue.num 2)
        (treeOfNums [1, 2, 3])).1) ↔
        x ∈ inOrderRec (treeOfNums [1, 2, 3]) ∧ x ≠ 2)
      ∧ bstB ((deleteItem (JSValue.num 2) (treeOfNums [1, 2, 3])).1) = true)
    ∧ ((7 : Int) ∉ inOrderRec (treeOfNums [1, 2, 3]) →
        (deleteItem (JSValue.num 7) (treeOfNums [1, 2, 3])).1 =
          treeOfNums [1, 2, 3]) :=
  ⟨(claim_C5_delete_correct (treeOfNums [1, 2, 3]) 2 (by decide)).1,
    (claim_C5_delete_correct (treeOfNums [1, 2, 3]) 7 (by decide)).2.1⟩

/-- C6: every construction from numeric-coercible values yields a tree on
which isBalanced() returns true, and the mid = floor(length / 2) split
makes the left and right subtree sizes differ by at most one at every
node; in particular this holds for new([1..n]) for every n. -/
theorem claim_C6_balanced_construction :
    (∀ l : List Int,
      (isBalanced (treeOfNums l)).1 = true
      ∧ sizeBalancedB (treeOfNums l) = true)
    ∧ ∀ n : Nat,
        (isBalanced (treeOfNums ((List.range n).map
          (fun k => (k : Int) + 1)))).1 = true := by
  refine ⟨fun l => ⟨?_, sizeBalancedB_buildTree _⟩, fun n => ?_⟩
  · exact isBalancedRec_buildTree _
  · exact isBalancedRec_buildTree _

/-- C7: for every tree, rebalance() preserves the in-order key sequence
and afterwards isBalanced() returns true; on an already balanced tree it
leaves the root untouched. -/
theorem claim_C7_rebalance (t : BTree) :
    inOrderRec (rebalance t) = inOrderRec t
    ∧ (isBalanced (rebalance t)).1 = true
    ∧ (isBalancedRec t = true → rebalance t = t) := by
  rw [rebalance]
  by_cases h : isBalancedRec t = true
  · rw [if_pos h]
    exact ⟨rfl, h, fun _ => rfl⟩
  · rw [if_neg h]
    refine ⟨inOrderRec_buildTree _, isBalancedRec_buildTree _, fun hc => absurd hc h⟩

/-- C8: inserting a numeric value whose conversion is already a key
leaves the set of keys unchanged. -/
theorem claim_C8_insert_idempotent (t : BTree) (v : Int)
    (hv : v ∈ inOrderRec t) :
    ∀ x : Int, x ∈ inOrderRec ((insert (JSValue.num v) t).1) ↔
      x ∈ inOrderRec t := by
  intro x
  show x ∈ inOrderRec (insertRec v t) ↔ x ∈ inOrderRec t
  rw [mem_insertRec]
  constructor
  · rintro (rfl | hx)
    · exact hv
    · exact hx
  · exact Or.inr

/-- Witness for C8 on the tree new([1, 2, 3]) with v = 2, instantiated at
the key 2. -/
theorem claim_C8_witness :
    (2 : Int) ∈ inOrderRec ((insert (JSValue.num 2)
        (treeOfNums [1, 2, 3])).1) ↔
      (2 : Int) ∈ inOrderRec (treeOfNums [1, 2, 3]) :=
  claim_C8_insert_idempotent (treeOfNums [1, 2, 3]) 2 (by decide) 2

/-- C9: insert, deleteItem and find throw the conversion error exactly on
a non-coercible argument, leaving the root untouched, and construction
throws it exactly when some item is non-coercible; on numeric-coercible
arguments none of them throws it. -/
theorem claim_C9_conversion_error (t : BTree) (n : Int)
    (l1 l2 : List JSValue) (lnum : List Int) :
    insert JSValue.other t = (t, true)
    ∧ deleteItem JSValue.other t = (t, true)
    ∧ find JSValue.other t = (Except.error (), t)
    ∧ newTree (l1 ++ JSValue.other :: l2) = Except.error ()
    ∧ (insert (JSValue.num n) t).2 = false
    ∧ (deleteItem (JSValue.num n) t).2 = false
    ∧ find (JSValue.num n) t = (Except.ok (findRec n t), t)
    ∧ newTree (lnum.map JSValue.num) = Except.ok (treeOfNums lnum) := by
  refine ⟨rfl, rfl, rfl, ?_, rfl, rfl, rfl, ?_⟩
  · rw [newTree, processArray, coerceAll_error]
    rfl
  · rw [newTree, processArray, coerceAll_nums]
    rfl

/-- C10 (frame property): the query operations find (on any argument),
height, isBalanced, levelOrder and inOrder (callbacks modelled as pure
observers of the visited node) leave the root and every node unchanged:
their method bodies contain no assignment, so in state-passing form they
return the tree they were given. -/
theorem claim_C10_queries_pure (t nd : BTree) (v : JSValue) :
    (find v t).2 = t
    ∧ (heightOp nd t).2 = t
    ∧ (isBalanced t).2 = t
    ∧ (levelOrder t).2 = t
    ∧ (inOrder t).2 = t := by
  cases v <;> exact ⟨rfl, rfl, rfl, rfl, rfl⟩

end BST
